import Mathlib

/-!
Verification of the fast-wc word counter (src/competitors/fast-cpp/fast-wc.cpp).

The development shallowly embeds the program's core algorithms:
* the streaming tokenizer of `wcounter` / `found_something` / `found`
  (blocks, split-word glue, end-of-stream flush),
* the sequential and parallel-tree reductions of per-thread tables,
* the report comparator `DefineSortOrder` and the ordered report,
* the option parsing of `main`, the bounded handle queue's semaphore
  accounting, and the post-join report/exit logic of `main`.
Words are byte lists, per-thread tables are functions from words to counts.
-/

namespace FastWC

/-- A word is a sequence of bytes (each byte a natural, masked mod 256 by the
classifier, exactly as the C++ indexes `token_chars[0xFF & (unsigned)c]`). -/
abbrev Word := List Nat

/-- A word-count table (`WordCount = std::map<std::string,int>`), modelled
extensionally: absent keys map to 0. -/
abbrev WC := Word → Nat

/-- The empty table. -/
def emptyWC : WC := fun _ => 0

/-- `sub_count[tn][std::string(word)]++` : increment one word's count. -/
def bump (m : WC) (w : Word) : WC := fun v => if v = w then m v + 1 else m v

/-- The token classifier `token_chars`: 1 exactly for the bytes of
`"a..zA..Z0..9_"`, after the `0xFF &` mask applied in `wcounter`. -/
def isTok (b : Nat) : Bool :=
  let c := b % 256
  (97 ≤ c && c ≤ 122) || (65 ≤ c && c ≤ 90) || (48 ≤ c && c ≤ 57) || (c == 95)

/-- The split-word overload `found(int&, char*&, char*&)`: glue a pending
block-final fragment to the continuation; reject (log, leave counts unchanged)
when `plen + slen >= 1023`, else record the combined word. -/
def found_glue (c : WC) (p s : Word) : WC :=
  if 1023 ≤ p.length + s.length then c else bump c (p ++ s)

/-- `found_something`: the four cases on (pending prefix, current candidate).
`pfx = some p` models `prefix != nullptr`; `cand = some s` models
`sptr != -1` with candidate bytes `s`. -/
def found_something (c : WC) (pfx cand : Option Word) : WC :=
  match pfx, cand with
  | some p, some s => found_glue c p s
  | some p, none => bump c p
  | none, some s => bump c s
  | none, none => c

/-- One read block of `wcounter`'s inner loop: scan bytes left to right;
token bytes extend the candidate, a non-token byte fires `found_something`
(clearing prefix and candidate); at the end of the block a live candidate
becomes the new pending prefix (`memcpy` into `prefix_copy`) — note this
overwrites any previous pending prefix, exactly as the C++ does.
Returns the updated table and the pending prefix after the block. -/
def scanBlock (c : WC) (pfx cand : Option Word) : List Nat → WC × Option Word
  | [] =>
    (c, match cand with
        | some s => some s
        | none => pfx)
  | b :: rest =>
    if isTok b then scanBlock c pfx (some (cand.getD [] ++ [b])) rest
    else scanBlock (found_something c pfx cand) none none rest

/-- `read(fdesc, buffer, BLOCKSIZE)` on a regular file: successive blocks of
exactly `B` bytes, the last one shorter; `B = 0` reads nothing. Fuelled by the
file length so that it is structurally recursive and executable. -/
def chunksAux (B : Nat) : Nat → List Nat → List (List Nat)
  | 0, _ => []
  | _, [] => []
  | fuel + 1, l@(_ :: _) =>
    if B = 0 then [] else l.take B :: chunksAux B fuel (l.drop B)

/-- The block decomposition of a file's bytes for block size `B`. -/
def chunks (B : Nat) (l : List Nat) : List (List Nat) :=
  chunksAux B l.length l

/-- The read loop of `wcounter` over one file: fold `scanBlock` over the
blocks, starting with an empty table and no pending prefix (`sptr = -1`,
`prefix = nullptr`). -/
def scanFile (B : Nat) (file : List Nat) : WC × Option Word :=
  (chunks B file).foldl (fun st blk => scanBlock st.1 st.2 none blk)
    (emptyWC, none)

/-- A whole file through `wcounter`: the read loop, then the end-of-stream
`found_something(n, buffer, prefix, sptr)` with `sptr = -1`. -/
def tokenizeFile (B : Nat) (file : List Nat) : WC :=
  found_something (scanFile B file).1 (scanFile B file).2 none

/-! ### Reference scanners used to state and prove tokenizer properties -/

/-- Single-pass scanner: same per-byte branching as the block scanner, but the
current run is carried directly (no block boundaries, no length check). -/
def scanList (c : WC) (cur : Word) : List Nat → WC × Word
  | [] => (c, cur)
  | b :: rest =>
    if isTok b then scanList c (cur ++ [b]) rest
    else scanList (if cur = [] then c else bump c cur) [] rest

/-- The maximal runs of classifier-positive bytes of an input, continuing an
initial partial run `cur`. -/
def runsAux (cur : Word) : List Nat → List Word
  | [] => if cur = [] then [] else [cur]
  | b :: rest =>
    if isTok b then runsAux (cur ++ [b]) rest
    else if cur = [] then runsAux [] rest else cur :: runsAux [] rest

/-- The maximal classifier-positive runs (the words) of a byte list. -/
def runsList (l : List Nat) : List Word := runsAux [] l

/-- Number of occurrences of `w` in a list of words. -/
def occs (w : Word) : List Word → Nat
  | [] => 0
  | r :: rest => (if r = w then 1 else 0) + occs w rest

/-- Every maximal run of the file is at most 1022 bytes long. -/
def runsBounded (l : List Nat) : Bool :=
  (runsList l).all fun r => decide (r.length ≤ 1022)

/-- The file does not end in the middle of a word. -/
def endsNonTok (l : List Nat) : Bool :=
  match l.getLast? with
  | none => true
  | some b => !isTok b

/-- Encode a possibly-empty carried run as the scanner's optional state. -/
def toOpt (w : Word) : Option Word := if w = [] then none else some w

/-- Flush a scanner state at end of stream: record the pending run, if any. -/
def flushWC (st : WC × Word) : WC := if st.2 = [] then st.1 else bump st.1 st.2

/-- The pending (not yet terminated) trailing run after scanning an input,
continuing an initial partial run `cur`. -/
def pendAux (cur : Word) : List Nat → Word
  | [] => cur
  | b :: rest => if isTok b then pendAux (cur ++ [b]) rest else pendAux [] rest

/-- The runs already terminated by a non-token byte while scanning an input
(the trailing pending run excluded). -/
def runsFin (cur : Word) : List Nat → List Word
  | [] => []
  | b :: rest =>
    if isTok b then runsFin (cur ++ [b]) rest
    else if cur = [] then runsFin [] rest else cur :: runsFin [] rest

/-! ### Basic lemmas about the reference scanners -/

theorem toOpt_nil : toOpt [] = none := rfl

theorem bump_self (c : WC) (w : Word) : bump c w w = c w + 1 := by simp [bump]

theorem bump_ne (c : WC) {v w : Word} (h : v ≠ w) : bump c w v = c v := by
  simp [bump, h]

theorem toOpt_getD (w : Word) : (toOpt w).getD [] = w := by
  by_cases h : w = [] <;> simp [toOpt, h]

theorem toOpt_of_ne_nil {w : Word} (h : w ≠ []) : toOpt w = some w := by
  simp [toOpt, h]

theorem scanList_snd (l : List Nat) : ∀ c cur, (scanList c cur l).2 = pendAux cur l := by
  induction l with
  | nil => intro c cur; rfl
  | cons b rest ih =>
    intro c cur
    by_cases hb : isTok b <;> simp [scanList, pendAux, hb, ih]

theorem scanList_snd_all (l : List Nat) :
    ∀ c cur, cur.all isTok = true → ((scanList c cur l).2).all isTok = true := by
  induction l with
  | nil => intro c cur h; exact h
  | cons b rest ih =>
    intro c cur h
    by_cases hb : isTok b
    · simpa [scanList, hb] using ih c (cur ++ [b]) (by simp [List.all_append, h, hb])
    · simpa [scanList, hb] using ih _ [] (by simp)

/-- Flushing the single-pass scanner yields exactly the counts of the maximal
classifier-positive runs. -/
theorem scanList_flush_counts (l : List Nat) :
    ∀ c cur w, flushWC (scanList c cur l) w = c w + occs w (runsAux cur l) := by
  induction l with
  | nil =>
    intro c cur w
    by_cases h : cur = []
    · simp [scanList, flushWC, runsAux, occs, h]
    · rcases eq_or_ne w cur with hw | hw
      · simp [scanList, flushWC, runsAux, occs, h, bump, hw]
      · simp [scanList, flushWC, runsAux, occs, h, bump, hw, Ne.symm hw]
  | cons b rest ih =>
    intro c cur w
    by_cases hb : isTok b
    · simpa [scanList, runsAux, hb] using ih c (cur ++ [b]) w
    · by_cases h : cur = []
      · simpa [scanList, runsAux, hb, h] using ih c [] w
      · have hrec := ih (bump c cur) [] w
        have hstep : scanList c cur (b :: rest) = scanList (bump c cur) [] rest := by
          simp [scanList, hb, h]
        have hruns : runsAux cur (b :: rest) = cur :: runsAux [] rest := by
          simp [runsAux, hb, h]
        rw [hstep, hrec, hruns, occs]
        rcases eq_or_ne cur w with hw | hw
        · subst hw
          rw [bump_self, if_pos rfl]
          omega
        · rw [bump_ne c (Ne.symm hw), if_neg hw]
          omega

/-- Splitting the scan of a concatenation: terminated runs of the first part,
then the runs of the second part continued from the first part's pending run. -/
theorem runsAux_append (xs : List Nat) :
    ∀ cur ys, runsAux cur (xs ++ ys) = runsFin cur xs ++ runsAux (pendAux cur xs) ys := by
  induction xs with
  | nil => intro cur ys; simp [runsFin, pendAux]
  | cons b rest ih =>
    intro cur ys
    by_cases hb : isTok b
    · simp [runsAux, runsFin, pendAux, hb, ih]
    · by_cases h : cur = [] <;> simp [runsAux, runsFin, pendAux, hb, h, ih]

/-- The runs of an input alone, split into terminated runs and the pending run. -/
theorem runsAux_eq_fin_pend (xs : List Nat) (cur : Word) :
    runsAux cur xs
      = runsFin cur xs ++ (if pendAux cur xs = [] then [] else [pendAux cur xs]) := by
  have h := runsAux_append xs cur []
  simpa [runsAux] using h

/-- A nonempty carried run is a prefix (in particular: no longer than) some
maximal run of the continued scan. -/
theorem exists_run_ge (l : List Nat) :
    ∀ cur, cur ≠ [] → ∃ r ∈ runsAux cur l, cur.length ≤ r.length := by
  induction l with
  | nil => intro cur h; exact ⟨cur, by simp [runsAux, h], le_refl _⟩
  | cons b rest ih =>
    intro cur h
    by_cases hb : isTok b
    · obtain ⟨r, hr, hlen⟩ := ih (cur ++ [b]) (by simp)
      exact ⟨r, by simpa [runsAux, hb] using hr,
        le_trans (by simp) hlen⟩
    · exact ⟨cur, by simp [runsAux, hb, h], le_refl _⟩

/-- Scanning an all-token segment just extends the carried run. -/
theorem runsAux_all_tok (bs : List Nat) :
    ∀ cur r, bs.all isTok = true → runsAux cur (bs ++ r) = runsAux (cur ++ bs) r := by
  induction bs with
  | nil => intro cur r _; simp
  | cons b rest ih =>
    intro cur r h
    simp only [List.all_cons, Bool.and_eq_true] at h
    simp [runsAux, h.1, ih _ _ h.2, List.append_assoc]

/-! ### Block scanning versus single-pass scanning -/

/-- With no pending prefix, one block behaves exactly like the single-pass
scanner carrying the current candidate. -/
theorem scanBlock_none (bs : List Nat) :
    ∀ c D, scanBlock c none (toOpt D) bs
      = ((scanList c D bs).1, toOpt (scanList c D bs).2) := by
  induction bs with
  | nil =>
    intro c D
    by_cases h : D = [] <;> simp [scanBlock, scanList, toOpt, h]
  | cons b rest ih =>
    intro c D
    by_cases hb : isTok b
    · have h2 : toOpt (D ++ [b]) = some (D ++ [b]) := toOpt_of_ne_nil (by simp)
      have hstep : scanBlock c none (toOpt D) (b :: rest)
          = scanBlock c none (toOpt (D ++ [b])) rest := by
        simp [scanBlock, hb, toOpt_getD, h2]
      rw [hstep, ih c (D ++ [b])]
      simp [scanList, hb]
    · by_cases h : D = []
      · have ih0 := ih c []
        rw [toOpt_nil] at ih0
        have hstep : scanBlock c none (toOpt D) (b :: rest)
            = scanBlock c none none rest := by
          simp [scanBlock, hb, h, toOpt_nil, found_something]
        rw [hstep, ih0]
        simp [scanList, hb, h]
      · have ih0 := ih (bump c D) []
        rw [toOpt_nil] at ih0
        have hstep : scanBlock c none (toOpt D) (b :: rest)
            = scanBlock (bump c D) none none rest := by
          simp [scanBlock, hb, toOpt_of_ne_nil h, found_something]
        rw [hstep, ih0]
        simp [scanList, hb, h]

/-- With a pending prefix `T` carried over the block boundary, and provided
(i) no run reaching 1023 bytes occurs (so the glue's length check passes) and
(ii) the block is not a nonempty all-token block (in which case the C++ would
overwrite the pending prefix), one block behaves like the single-pass scanner
carrying `T ++ D`. -/
theorem scanBlock_carry (bs : List Nat) :
    ∀ c T D, T ≠ [] → T.all isTok = true → D.all isTok = true →
      (∀ r ∈ runsAux (T ++ D) bs, r.length ≤ 1022) →
      (bs.all isTok = true → bs = [] ∧ D = []) →
      scanBlock c (some T) (toOpt D) bs
        = ((scanList c (T ++ D) bs).1, toOpt (scanList c (T ++ D) bs).2) := by
  induction bs with
  | nil =>
    intro c T D hT _ _ _ hcase
    obtain ⟨-, hD⟩ := hcase (by simp)
    subst hD
    simp [scanBlock, scanList, toOpt_nil, toOpt_of_ne_nil hT]
  | cons b rest ih =>
    intro c T D hT hTall hDall hHR hcase
    by_cases hb : isTok b
    · have h2 : toOpt (D ++ [b]) = some (D ++ [b]) := toOpt_of_ne_nil (by simp)
      have hstep : scanBlock c (some T) (toOpt D) (b :: rest)
          = scanBlock c (some T) (toOpt (D ++ [b])) rest := by
        simp [scanBlock, hb, toOpt_getD, h2]
      have hHR' : ∀ r ∈ runsAux (T ++ (D ++ [b])) rest, r.length ≤ 1022 := by
        intro r hr
        apply hHR
        simpa [runsAux, hb, List.append_assoc] using hr
      have hcase' : rest.all isTok = true → rest = [] ∧ D ++ [b] = [] := by
        intro hall
        exact absurd (hcase (by simp [hb, hall])).1 (by simp)
      rw [hstep, ih c T (D ++ [b]) hT hTall (by simp [List.all_append, hDall, hb]) hHR' hcase']
      simp [scanList, hb, List.append_assoc]
    · have hTD : T ++ D ≠ [] := by simp [hT]
      have hbound : (T ++ D).length ≤ 1022 := by
        apply hHR
        simp [runsAux, hb, hTD]
      have hlen : ¬ 1023 ≤ T.length + D.length := by
        rw [List.length_append] at hbound
        omega
      have hfs : found_something c (some T) (toOpt D) = bump c (T ++ D) := by
        by_cases h : D = []
        · subst h
          simp [found_something, toOpt_nil]
        · rw [toOpt_of_ne_nil h]
          simp [found_something, found_glue, hlen]
      have hstep : scanBlock c (some T) (toOpt D) (b :: rest)
          = scanBlock (bump c (T ++ D)) none none rest := by
        simp [scanBlock, hb, hfs]
      have hA := scanBlock_none rest (bump c (T ++ D)) []
      rw [toOpt_nil] at hA
      rw [hstep, hA]
      simp [scanList, hb, hTD]

/-! ### Structure of the block decomposition -/

/-- The final read of a file: nonempty, and (for the boundary-insensitivity
theorem) ending in a non-token byte. -/
def lastChunkGood (ch : List Nat) : Prop :=
  ch ≠ [] ∧ ∀ b, ch.getLast? = some b → isTok b = false

/-- Every read except the last returns exactly `B` bytes; the last one is
nonempty and ends in a non-token byte. -/
def goodChunks (B : Nat) : List (List Nat) → Prop
  | [] => True
  | [ch] => lastChunkGood ch
  | ch :: rest => ch.length = B ∧ goodChunks B rest

theorem goodChunks_cons (B : Nat) (ch : List Nat) {rest : List (List Nat)}
    (h : rest ≠ []) :
    goodChunks B (ch :: rest) ↔ ch.length = B ∧ goodChunks B rest := by
  cases rest with
  | nil => exact absurd rfl h
  | cons r t => rfl

theorem chunksAux_nil (B : Nat) : ∀ fuel, chunksAux B fuel [] = [] := by
  intro fuel; cases fuel <;> rfl

theorem chunksAux_ne_nil (B : Nat) {fuel : Nat} {l : List Nat}
    (hB : 1 ≤ B) (hl : l ≠ []) (hf : 1 ≤ fuel) : chunksAux B fuel l ≠ [] := by
  cases fuel with
  | zero => omega
  | succ f =>
    cases l with
    | nil => exact absurd rfl hl
    | cons a t =>
      simp only [chunksAux, if_neg (by omega : ¬ B = 0)]
      simp

theorem chunksAux_flatten (B : Nat) (hB : 1 ≤ B) :
    ∀ fuel l, l.length ≤ fuel → (chunksAux B fuel l).flatten = l := by
  intro fuel
  induction fuel with
  | zero =>
    intro l hl
    have : l = [] := List.length_eq_zero.mp (by omega)
    simp [this, chunksAux_nil]
  | succ f ih =>
    intro l hl
    cases l with
    | nil => simp [chunksAux_nil]
    | cons a t =>
      have hBne : ¬ B = 0 := by omega
      have hlen : (List.drop B (a :: t)).length ≤ f := by
        rw [List.length_drop]
        simp only [List.length_cons] at hl ⊢
        omega
      simp [chunksAux, hBne, ih _ hlen]

theorem chunks_flatten (B : Nat) (l : List Nat) (hB : 1 ≤ B) :
    (chunks B l).flatten = l :=
  chunksAux_flatten B hB l.length l (le_refl _)

theorem getLast?_drop_of_ne_nil {B : Nat} {l : List Nat}
    (h : l.drop B ≠ []) : (l.drop B).getLast? = l.getLast? := by
  conv_rhs => rw [← List.take_append_drop B l]
  rw [List.getLast?_append]
  cases hc : (l.drop B).getLast? with
  | none => exact absurd (List.getLast?_eq_none_iff.mp hc) h
  | some b => rfl

theorem chunksAux_good (B : Nat) (hB : 1 ≤ B) :
    ∀ fuel l, l ≠ [] → l.length ≤ fuel →
      (∀ b, l.getLast? = some b → isTok b = false) →
      goodChunks B (chunksAux B fuel l) := by
  intro fuel
  induction fuel with
  | zero =>
    intro l hl hlen _
    exact absurd (List.length_eq_zero.mp (by omega)) hl
  | succ f ih =>
    intro l hl hlen hend
    have hBne : ¬ B = 0 := by omega
    cases l with
    | nil => exact absurd rfl hl
    | cons a t =>
      rw [show chunksAux B (f + 1) (a :: t)
            = (a :: t).take B :: chunksAux B f ((a :: t).drop B) by
          simp [chunksAux, hBne]]
      by_cases hd : (a :: t).drop B = []
      · rw [hd, chunksAux_nil]
        have htake : (a :: t).take B = a :: t :=
          List.take_of_length_le (List.drop_eq_nil_iff.mp hd)
        rw [htake]
        exact ⟨hl, hend⟩
      · have hlt : B < (a :: t).length := by
          by_contra hle
          exact hd (List.drop_eq_nil_of_le (by omega))
        have hfuel : 1 ≤ f := by
          omega
        have hrest : chunksAux B f ((a :: t).drop B) ≠ [] :=
          chunksAux_ne_nil B hB hd hfuel
        rw [goodChunks_cons B _ hrest]
        constructor
        · rw [List.length_take]
          exact min_eq_left (by omega)
        · apply ih _ hd
          · rw [List.length_drop]
            omega
          · intro b hb
            exact hend b (getLast?_drop_of_ne_nil hd ▸ hb)

theorem chunks_good (B : Nat) (l : List Nat) (hB : 1 ≤ B) (hl : l ≠ [])
    (hend : ∀ b, l.getLast? = some b → isTok b = false) :
    goodChunks B (chunks B l) :=
  chunksAux_good B hB l.length l hl (le_refl _) hend

/-- Single-pass scanning splits along concatenation. -/
theorem scanList_append (xs : List Nat) :
    ∀ c cur ys, scanList c cur (xs ++ ys)
      = scanList (scanList c cur xs).1 (scanList c cur xs).2 ys := by
  induction xs with
  | nil => intro c cur ys; rfl
  | cons b rest ih =>
    intro c cur ys
    by_cases hb : isTok b <;> simp [scanList, hb, ih]

/-- Bound the within-block runs by the runs of the block extended by the rest
of the file: finished runs are runs of the extension, and the pending run is a
prefix of one. -/
theorem runs_block_bound {T : Word} {bs ys : List Nat}
    (hHR : ∀ r ∈ runsAux T (bs ++ ys), r.length ≤ 1022) :
    ∀ r ∈ runsAux T bs, r.length ≤ 1022 := by
  intro r hr
  rw [runsAux_eq_fin_pend] at hr
  rcases List.mem_append.mp hr with hfin | hpend
  · exact hHR r (by rw [runsAux_append]; exact List.mem_append_left _ hfin)
  · by_cases hp : pendAux T bs = []
    · simp [hp] at hpend
    · simp only [if_neg hp, List.mem_singleton] at hpend
      subst hpend
      obtain ⟨r', hr', hlen⟩ := exists_run_ge ys (pendAux T bs) hp
      have : r' ∈ runsAux T (bs ++ ys) := by
        rw [runsAux_append]
        exact List.mem_append_right _ hr'
      exact le_trans hlen (hHR r' this)

/-- The worker's fold of `scanBlock` over well-formed blocks agrees with the
single-pass scan of the file's bytes, provided no run reaches 1023 bytes. -/
theorem scanChunks_eq (B : Nat) (hB : 1023 ≤ B) :
    ∀ chs (c : WC) (T : Word), T.all isTok = true →
      (∀ r ∈ runsAux T chs.flatten, r.length ≤ 1022) →
      goodChunks B chs →
      chs.foldl (fun st blk => scanBlock st.1 st.2 none blk) (c, toOpt T)
        = ((scanList c T chs.flatten).1, toOpt (scanList c T chs.flatten).2) := by
  intro chs
  induction chs with
  | nil =>
    intro c T _ _ _
    simp [scanList]
  | cons bs rest ih =>
    intro c T hTall hHR hgood
    have hflat : (bs :: rest).flatten = bs ++ rest.flatten := by simp
    rw [hflat] at hHR
    -- the block is not a nonempty all-token block
    have hcase : bs.all isTok = true → bs = [] ∧ ([] : Word) = [] := by
      intro hall
      refine ⟨?_, rfl⟩
      cases hrest : rest with
      | nil =>
        subst hrest
        obtain ⟨hne, hlast⟩ := hgood
        cases hlastq : bs.getLast? with
        | none => exact List.getLast?_eq_none_iff.mp hlastq
        | some b =>
          have hmem := List.mem_of_getLast?_eq_some hlastq
          have := List.all_eq_true.mp hall b hmem
          rw [hlast b hlastq] at this
          cases this
      | cons r t =>
        have hrne : rest ≠ [] := by rw [hrest]; simp
        have hlen : bs.length = B := ((goodChunks_cons B bs hrne).mp hgood).1
        have hne : bs ≠ [] := by
          intro h
          rw [h] at hlen
          simp at hlen
          omega
        exfalso
        have hrw := runsAux_all_tok bs T rest.flatten hall
        obtain ⟨r', hr', hlen'⟩ :=
          exists_run_ge rest.flatten (T ++ bs) (by simp [hne])
        have hb1 : r'.length ≤ 1022 := hHR r' (by rw [hrw]; exact hr')
        have hb2 : B ≤ (T ++ bs).length := by
          rw [List.length_append, hlen]
          omega
        omega
    -- the first block step
    have hstep : scanBlock c (toOpt T) none bs
        = ((scanList c T bs).1, toOpt (scanList c T bs).2) := by
      by_cases hT : T = []
      · subst hT
        rw [toOpt_nil]
        have h := scanBlock_none bs c []
        rw [toOpt_nil] at h
        exact h
      · rw [toOpt_of_ne_nil hT]
        have h := scanBlock_carry bs c T [] hT hTall (by simp)
          (by simpa using runs_block_bound hHR) (by simpa using hcase)
        rw [toOpt_nil] at h
        simpa using h
    -- recurse over the remaining blocks
    have hTall' : ((scanList c T bs).2).all isTok = true :=
      scanList_snd_all bs c T hTall
    have hHR' : ∀ r ∈ runsAux (scanList c T bs).2 rest.flatten, r.length ≤ 1022 := by
      intro r hr
      apply hHR
      rw [runsAux_append]
      apply List.mem_append_right
      rwa [scanList_snd] at hr
    have hgood' : goodChunks B rest := by
      cases hrest : rest with
      | nil => trivial
      | cons r t =>
        exact hrest ▸ ((goodChunks_cons B bs (by rw [hrest]; simp)).mp hgood).2
    calc (bs :: rest).foldl (fun st blk => scanBlock st.1 st.2 none blk) (c, toOpt T)
        = rest.foldl (fun st blk => scanBlock st.1 st.2 none blk)
            (scanBlock c (toOpt T) none bs) := by rfl
      _ = rest.foldl (fun st blk => scanBlock st.1 st.2 none blk)
            ((scanList c T bs).1, toOpt (scanList c T bs).2) := by rw [hstep]
      _ = ((scanList (scanList c T bs).1 (scanList c T bs).2 rest.flatten).1,
            toOpt (scanList (scanList c T bs).1 (scanList c T bs).2 rest.flatten).2) :=
            ih (scanList c T bs).1 (scanList c T bs).2 hTall' hHR' hgood'
      _ = ((scanList c T (bs :: rest).flatten).1,
            toOpt (scanList c T (bs :: rest).flatten).2) := by
            rw [hflat, scanList_append]

/-! ### Whole-file tokenizer theorems -/

/-- Claim C1 (amended): for every block size of at least 1023 bytes (the
program's block sizes are positive multiples of 1024), if every maximal word
run of the file is at most 1022 bytes and the file does not end in the middle
of a word, then every word — including words split across two consecutive read
blocks — is recorded as exactly one occurrence of the whole word, and the
final aggregate counts are independent of the block size (both equal the run
counts of the unpartitioned byte stream). -/
theorem tokenize_counts_runs (B : Nat) (file : List Nat)
    (hB : 1023 ≤ B) (hruns : runsBounded file = true)
    (hend : endsNonTok file = true) :
    ∀ w, tokenizeFile B file w = occs w (runsList file) := by
  intro w
  by_cases hf : file = []
  · subst hf
    simp [tokenizeFile, scanFile, chunks, chunksAux_nil, found_something,
      emptyWC, runsList, runsAux, occs]
  · have hB1 : 1 ≤ B := by omega
    have hendP : ∀ b, file.getLast? = some b → isTok b = false := by
      intro b hb
      unfold endsNonTok at hend
      rw [hb] at hend
      simpa using hend
    have hgood := chunks_good B file hB1 hf hendP
    have hrunsP : ∀ r ∈ runsAux [] (chunks B file).flatten, r.length ≤ 1022 := by
      rw [chunks_flatten B file hB1]
      intro r hr
      exact of_decide_eq_true (List.all_eq_true.mp hruns r hr)
    have hmain := scanChunks_eq B hB (chunks B file) emptyWC [] (by simp) hrunsP hgood
    rw [chunks_flatten B file hB1] at hmain
    have hsf : scanFile B file
        = ((scanList emptyWC [] file).1, toOpt (scanList emptyWC [] file).2) := by
      unfold scanFile
      rw [show ((emptyWC, none) : WC × Option Word) = (emptyWC, toOpt []) by
        rw [toOpt_nil]]
      exact hmain
    have hflush : tokenizeFile B file w = flushWC (scanList emptyWC [] file) w := by
      unfold tokenizeFile
      rw [hsf]
      by_cases hp : (scanList emptyWC [] file).2 = []
      · simp [found_something, flushWC, hp, toOpt_nil]
      · simp [found_something, flushWC, hp, toOpt_of_ne_nil hp]
    rw [hflush, scanList_flush_counts]
    simp [emptyWC, runsList]

/-- A file whose last word straddles the final read boundary: 1020 spaces
followed by eight letters `a`. -/
def fileSplitEof : List Nat := List.replicate 1020 32 ++ List.replicate 8 97

/-- The eight-letter word at the end of `fileSplitEof`. -/
def wordSplitEof : Word := List.replicate 8 97

set_option maxRecDepth 1000000 in
/-- Claim C1, as stated, is false: the eight-byte word split across two
1024-byte blocks is not recorded as one occurrence of the whole word (the
pending-prefix copy at the end of the second block overwrites the first
fragment), and the aggregate counts depend on the block size: with
`B = 1024` the word's count is 0, with `B = 2048` it is 1, although the file
contains exactly one such run. -/
theorem counts_depend_on_block_size :
    tokenizeFile 1024 fileSplitEof wordSplitEof = 0 ∧
    tokenizeFile 2048 fileSplitEof wordSplitEof = 1 ∧
    occs wordSplitEof (runsList fileSplitEof) = 1 := by
  refine ⟨by decide, by decide, by decide⟩

/-! ### End-of-stream flush (claim C8) -/

theorem scanBlock_snd_of_last_tok (bs : List Nat) :
    ∀ c pfx cand b, bs.getLast? = some b → isTok b = true →
      ∃ p, (scanBlock c pfx cand bs).2 = some p ∧ p ≠ [] := by
  induction bs with
  | nil => intro c pfx cand b hb _; cases hb
  | cons x rest ih =>
    intro c pfx cand b hb htok
    cases rest with
    | nil =>
      have hxb : x = b := by simpa using hb
      subst hxb
      simp [scanBlock, htok]
    | cons y t =>
      rw [List.getLast?_cons_cons] at hb
      by_cases hx : isTok x
      · simp only [scanBlock, if_pos hx]
        exact ih c pfx _ b hb htok
      · simp only [scanBlock, if_neg hx]
        exact ih _ none none b hb htok

theorem foldl_scanBlock_last :
    ∀ (chs : List (List Nat)) (st : WC × Option Word), chs ≠ [] →
      ∃ (st' : WC × Option Word) (lc : List Nat), chs.getLast? = some lc ∧
        chs.foldl (fun s blk => scanBlock s.1 s.2 none blk) st
          = scanBlock st'.1 st'.2 none lc := by
  intro chs
  induction chs with
  | nil => intro st h; exact absurd rfl h
  | cons bs rest ih =>
    intro st _
    cases hrest : rest with
    | nil => exact ⟨st, bs, rfl, rfl⟩
    | cons r t =>
      obtain ⟨st', lc, hlc, hfold⟩ := ih (scanBlock st.1 st.2 none bs)
        (by rw [hrest]; simp)
      rw [hrest] at hfold hlc
      refine ⟨st', lc, ?_, hfold⟩
      rw [List.getLast?_cons_cons]
      exact hlc

theorem chunksAux_getLast (B : Nat) (hB : 1 ≤ B) :
    ∀ fuel l, l ≠ [] → l.length ≤ fuel →
      ∃ lc, (chunksAux B fuel l).getLast? = some lc ∧ lc ≠ [] ∧
        lc.getLast? = l.getLast? := by
  intro fuel
  induction fuel with
  | zero =>
    intro l hl hlen
    exact absurd (List.length_eq_zero.mp (by omega)) hl
  | succ f ih =>
    intro l hl hlen
    have hBne : ¬ B = 0 := by omega
    cases l with
    | nil => exact absurd rfl hl
    | cons a t =>
      rw [show chunksAux B (f + 1) (a :: t)
            = (a :: t).take B :: chunksAux B f ((a :: t).drop B) by
          simp [chunksAux, hBne]]
      by_cases hd : (a :: t).drop B = []
      · rw [hd, chunksAux_nil]
        have htake : (a :: t).take B = a :: t :=
          List.take_of_length_le (List.drop_eq_nil_iff.mp hd)
        exact ⟨a :: t, by rw [htake]; rfl, hl, rfl⟩
      · have hlt : B < (a :: t).length := by
          by_contra hle
          exact hd (List.drop_eq_nil_of_le (by omega))
        have hfuel : 1 ≤ f := by omega
        obtain ⟨lc, hlc, hne, hlast⟩ := ih ((a :: t).drop B) hd
          (by rw [List.length_drop]; omega)
        have hrest : chunksAux B f ((a :: t).drop B) ≠ [] :=
          chunksAux_ne_nil B hB hd hfuel
        refine ⟨lc, ?_, hne, by rw [hlast, getLast?_drop_of_ne_nil hd]⟩
        cases hc : chunksAux B f ((a :: t).drop B) with
        | nil => exact absurd hc hrest
        | cons u v =>
          rw [List.getLast?_cons_cons, ← hc]
          exact hlc

theorem pendAux_append (xs : List Nat) :
    ∀ cur ys, pendAux cur (xs ++ ys) = pendAux (pendAux cur xs) ys := by
  induction xs with
  | nil => intro cur ys; rfl
  | cons b rest ih =>
    intro cur ys
    by_cases hb : isTok b <;> simp [pendAux, hb, ih]

theorem pendAux_all_tok (l : List Nat) :
    ∀ cur, l.all isTok = true → pendAux cur l = cur ++ l := by
  induction l with
  | nil => intro cur _; simp [pendAux]
  | cons b rest ih =>
    intro cur h
    simp only [List.all_cons, Bool.and_eq_true] at h
    simp [pendAux, h.1, ih _ h.2]

theorem pendAux_of_not_all (l : List Nat) :
    ∀ cur cur', ¬ l.all isTok = true → pendAux cur l = pendAux cur' l := by
  induction l with
  | nil => intro cur cur' h; simp at h
  | cons b rest ih =>
    intro cur cur' h
    by_cases hb : isTok b
    · have hrest : ¬ rest.all isTok = true := by
        intro hc
        exact h (by simp [hb, hc])
      simp only [pendAux, if_pos hb]
      exact ih _ _ hrest
    · simp [pendAux, hb]

theorem pendAux_ne_nil (bs : List Nat) :
    ∀ cur b, bs.getLast? = some b → isTok b = true → pendAux cur bs ≠ [] := by
  induction bs with
  | nil => intro cur b hb _; cases hb
  | cons x rest ih =>
    intro cur b hb htok
    cases rest with
    | nil =>
      have hxb : x = b := by simpa using hb
      subst hxb
      simp [pendAux, htok]
    | cons y t =>
      rw [List.getLast?_cons_cons] at hb
      by_cases hx : isTok x
      · simp only [pendAux, if_pos hx]
        exact ih _ b hb htok
      · simp only [pendAux, if_neg hx]
        exact ih _ b hb htok

/-- The pending prefix left by one block that ends in a token byte is exactly
the block's trailing token run continued from the incoming candidate. -/
theorem scanBlock_snd_pend (bs : List Nat) :
    ∀ c pfx cand b, bs.getLast? = some b → isTok b = true →
      (scanBlock c pfx cand bs).2 = some (pendAux (cand.getD []) bs) := by
  induction bs with
  | nil => intro c pfx cand b hb _; cases hb
  | cons x rest ih =>
    intro c pfx cand b hb htok
    cases rest with
    | nil =>
      have hxb : x = b := by simpa using hb
      subst hxb
      simp [scanBlock, pendAux, htok]
    | cons y t =>
      rw [List.getLast?_cons_cons] at hb
      by_cases hx : isTok x
      · rw [show scanBlock c pfx cand (x :: y :: t)
            = scanBlock c pfx (some (cand.getD [] ++ [x])) (y :: t) by
          simp [scanBlock, hx]]
        rw [ih c pfx _ b hb htok]
        simp [pendAux, hx]
      · rw [show scanBlock c pfx cand (x :: y :: t)
            = scanBlock (found_something c pfx cand) none none (y :: t) by
          simp [scanBlock, hx]]
        rw [ih _ none none b hb htok]
        simp [pendAux, hx]

/-- Claim C8 (amended): for every file whose content ends mid-word, the worker
flushes the nonempty pending remainder as exactly one final counted word. The
remainder is exactly the trailing word fragment of the final read (`pendAux
[] lc` for the last block `lc`); it equals the file's whole last word —
the last entry of the file's maximal runs — whenever that word does not
straddle the final read boundary (its length is at most the final read's
length), and only the fragment after the last boundary when it does. -/
theorem eof_flushes_pending (B : Nat) (file : List Nat)
    (hB : 1 ≤ B) (hend : endsNonTok file = false) :
    ∃ p lc, (chunks B file).getLast? = some lc ∧ p = pendAux [] lc ∧
      p ≠ [] ∧ (scanFile B file).2 = some p ∧
      tokenizeFile B file = bump (scanFile B file).1 p ∧
      (runsList file).getLast? = some (pendAux [] file) ∧
      ((pendAux [] file).length ≤ lc.length → p = pendAux [] file) := by
  have hlast : ∃ b, file.getLast? = some b ∧ isTok b = true := by
    unfold endsNonTok at hend
    cases hbq : file.getLast? with
    | none => rw [hbq] at hend; simp at hend
    | some b =>
      rw [hbq] at hend
      simp only [Bool.not_eq_false'] at hend
      exact ⟨b, rfl, hend⟩
  obtain ⟨b, hb, htok⟩ := hlast
  have hf : file ≠ [] := by
    intro h
    rw [h] at hb
    cases hb
  have hchne : chunks B file ≠ [] := by
    unfold chunks
    refine chunksAux_ne_nil B hB hf ?_
    cases hc : file with
    | nil => exact absurd hc hf
    | cons a t => simp [hc]
  obtain ⟨lc, hlc, hlcne, hlclast⟩ :=
    chunksAux_getLast B hB file.length file hf (le_refl _)
  obtain ⟨st', lc', hlc', hfold⟩ :=
    foldl_scanBlock_last (chunks B file) (emptyWC, none) hchne
  have hlceq : lc' = lc := by
    unfold chunks at hlc'
    rw [hlc'] at hlc
    exact Option.some_injective _ hlc
  subst hlceq
  have hsf2 : scanFile B file = scanBlock st'.1 st'.2 none lc' := by
    unfold scanFile
    exact hfold
  have hlcb : lc'.getLast? = some b := by rw [hlclast, hb]
  have hp2 : (scanFile B file).2 = some (pendAux [] lc') := by
    rw [hsf2]
    have h := scanBlock_snd_pend lc' st'.1 st'.2 none b hlcb htok
    simpa using h
  have hpne : pendAux [] lc' ≠ [] := pendAux_ne_nil lc' [] b hlcb htok
  have hpfne : pendAux [] file ≠ [] := pendAux_ne_nil file [] b hb htok
  have hrlast : (runsList file).getLast? = some (pendAux [] file) := by
    have h := runsAux_eq_fin_pend file ([] : Word)
    rw [runsList, h, if_neg hpfne]
    simp [List.getLast?_append]
  obtain ⟨ys, hys⟩ := List.getLast?_eq_some_iff.mp hlc'
  have hfile : file = ys.flatten ++ lc' := by
    conv_lhs => rw [← chunks_flatten B file hB]
    rw [hys]
    simp
  have hnostraddle : (pendAux [] file).length ≤ lc'.length →
      pendAux [] lc' = pendAux [] file := by
    intro hlen
    have hsplit : pendAux [] file = pendAux (pendAux [] ys.flatten) lc' := by
      conv_lhs => rw [hfile]
      rw [pendAux_append]
    by_cases hall : lc'.all isTok = true
    · have h1 : pendAux (pendAux [] ys.flatten) lc'
          = pendAux [] ys.flatten ++ lc' := pendAux_all_tok lc' _ hall
      have h2 : pendAux [] lc' = lc' := by
        simpa using pendAux_all_tok lc' [] hall
      rw [hsplit, h1, List.length_append] at hlen
      have hP : pendAux [] ys.flatten = [] :=
        List.length_eq_zero.mp (by omega)
      rw [hsplit, h1, hP, h2]
      simp
    · rw [hsplit]
      exact pendAux_of_not_all lc' [] _ hall
  refine ⟨pendAux [] lc', lc', hlc', rfl, hpne, hp2, ?_, hrlast, hnostraddle⟩
  unfold tokenizeFile
  rw [hp2]
  rfl

/-- A file whose last word straddles the final read boundary with no
delimiter after it: 1022 spaces then four letters `a`. -/
def fileEofStraddle : List Nat := List.replicate 1022 32 ++ List.replicate 4 97

/-- The last (and only) word of `fileEofStraddle`. -/
def wordEofStraddle : Word := List.replicate 4 97

set_option maxRecDepth 1000000 in
/-- Claim C8's consequence clause is false: this file ends mid-word, the
flush fires, but the flushed remainder is only the fragment after the final
1024-byte boundary, so the file's last word `aaaa` is lost (count 0) even
though it is the file's unique maximal run. -/
theorem last_word_lost_at_boundary :
    endsNonTok fileEofStraddle = false ∧
    occs wordEofStraddle (runsList fileEofStraddle) = 1 ∧
    tokenizeFile 1024 fileEofStraddle wordEofStraddle = 0 := by
  refine ⟨by decide, by decide, by decide⟩

/-- Claim C1 witness: a concrete file with a word split across the 1024-byte
boundary, where the blocked tokenizer agrees with the run counts. -/
theorem tokenize_counts_runs_witness :
    tokenizeFile 1024 [104, 105, 32] [104, 105]
      = occs [104, 105] (runsList [104, 105, 32]) :=
  tokenize_counts_runs 1024 [104, 105, 32] (by decide) (by decide) (by decide)
    [104, 105]

/-! ### The split-word glue's length check (claim C5) -/

set_option maxRecDepth 1000000 in
/-- Claim C5, as stated, is false: a split word whose combined length is
exactly 1023 bytes does not exceed the 1023-byte limit, yet the glue's
`plen + slen >= 1023` check rejects it (count stays 0); an unsplit candidate
of the same 1023 bytes is recorded. -/
theorem glue_rejects_exact_limit :
    (List.replicate 1022 97 : Word).length + ([97] : Word).length = 1023 ∧
    found_glue emptyWC (List.replicate 1022 97) [97] (List.replicate 1023 97) = 0 ∧
    found_something emptyWC none (some (List.replicate 1023 97))
      (List.replicate 1023 97) = 1 := by
  refine ⟨by decide, by decide, by decide⟩

/-- Claim C5 (amended): the glue rejects (leaving the table unchanged) exactly
when the combined length is at least 1023 bytes; every split word of at most
1022 combined bytes is recorded as one occurrence of the glued word. -/
theorem glue_length_check (c : WC) (p s : Word) :
    (p.length + s.length ≤ 1022 → found_glue c p s (p ++ s) = c (p ++ s) + 1) ∧
    (1023 ≤ p.length + s.length → found_glue c p s = c) := by
  constructor
  · intro h
    rw [found_glue, if_neg (by omega)]
    exact bump_self c (p ++ s)
  · intro h
    rw [found_glue, if_pos h]

/-- Claim C5 witness: a short split word is glued and recorded once. -/
theorem glue_length_check_witness :
    found_glue emptyWC [104] [105] [104, 105] = 1 := by
  have h := (glue_length_check emptyWC [104] [105]).1 (by decide)
  simpa [emptyWC] using h

/-- Claim C8 witness: a one-byte file ending mid-word has its remainder — the
trailing fragment of the final (only) read, here the whole last word —
flushed as a final counted word. -/
theorem eof_flushes_pending_witness :
    ∃ p lc, (chunks 1024 [97]).getLast? = some lc ∧ p = pendAux [] lc ∧
      p ≠ [] ∧ (scanFile 1024 [97]).2 = some p ∧
      tokenizeFile 1024 [97] = bump (scanFile 1024 [97]).1 p ∧
      (runsList [97]).getLast? = some (pendAux [] [97]) ∧
      ((pendAux [] [97]).length ≤ lc.length → p = pendAux [] [97]) :=
  eof_flushes_pending 1024 [97] (by decide) (by decide)

/-! ### Reduction: sequential fold versus parallel tree merge (claim C3) -/

/-- The sequential reduction of `main`: fold every per-thread table into a
fresh total, summing counts per word (`totals[word] += count`). -/
def seqTotal (t : Nat → WC) (N : Nat) : WC :=
  fun w => (List.range N).foldl (fun acc n => acc + t n w) 0

/-- The parallel tree merge of `wcounter` after the `END` sentinel: worker `n`
at round `bit` (1, 2, 4, ...) first checks that its partner `n + bit` exists
(`n + partner < nthreads`), drops out when `n &&& bit ≠ 0`, and otherwise
waits for the partner's final table, folds it in, and doubles `bit`. `cur` is
worker `n`'s table so far; `fuel` bounds the recursion depth. -/
def wfin (t : Nat → WC) (N : Nat) : Nat → Nat → Nat → WC → WC
  | 0, _, _, cur => cur
  | fuel + 1, n, bit, cur =>
    if n + bit < N then
      if n &&& bit ≠ 0 then cur
      else wfin t N fuel n (2 * bit)
        (fun w => cur w + wfin t N fuel (n + bit) 1 (t (n + bit)) w)
    else cur

/-- Worker 0's table at the end of the parallel tree merge. -/
def parallelTotal (t : Nat → WC) (N : Nat) : WC :=
  wfin t N (2 * N) 0 1 (t 0)

theorem mod_two_pow_succ (n k : Nat) :
    n % 2 ^ (k + 1) = n % 2 ^ k + 2 ^ k * (n / 2 ^ k % 2) := by
  rw [pow_succ]
  exact Nat.mod_mul

theorem and_two_pow_zero_iff (n k : Nat) :
    n &&& 2 ^ k = 0 ↔ n / 2 ^ k % 2 = 0 := by
  rw [Nat.and_two_pow]
  have htb : n.testBit k = decide (n / 2 ^ k % 2 = 1) := Nat.testBit_to_div_mod
  have hpos : 0 < (2 : Nat) ^ k := Nat.pow_pos (by norm_num)
  cases h : n.testBit k
  · rw [h] at htb
    have h1 : ¬ n / 2 ^ k % 2 = 1 := by
      intro hc
      rw [hc] at htb
      simp at htb
    simp only [Bool.toNat_false, Nat.zero_mul]
    constructor
    · intro _; omega
    · intro _; trivial
  · rw [h] at htb
    have h1 : n / 2 ^ k % 2 = 1 := of_decide_eq_true htb.symm
    simp only [Bool.toNat_true, Nat.one_mul]
    constructor
    · intro hz; omega
    · intro hz; omega

theorem mod_succ_of_and_zero {n k : Nat} (h1 : n % 2 ^ k = 0)
    (h2 : n &&& 2 ^ k = 0) : n % 2 ^ (k + 1) = 0 := by
  rw [mod_two_pow_succ, h1, (and_two_pow_zero_iff n k).mp h2]
  ring

theorem mod_succ_of_and_ne {n k : Nat} (h1 : n % 2 ^ k = 0)
    (h2 : n &&& 2 ^ k ≠ 0) : n % 2 ^ (k + 1) = 2 ^ k := by
  have hd : n / 2 ^ k % 2 = 1 := by
    have := (and_two_pow_zero_iff n k).not.mp ?_
    · omega
    · exact fun hc => h2 ((and_two_pow_zero_iff n k).mpr ((and_two_pow_zero_iff n k).mp hc))
  rw [mod_two_pow_succ, h1, hd]
  ring

theorem mod_pow_zero_of_le {n a b : Nat} (hab : a ≤ b) (h : n % 2 ^ b = 0) :
    n % 2 ^ a = 0 :=
  Nat.mod_eq_zero_of_dvd
    (dvd_trans (pow_dvd_pow 2 hab) (Nat.dvd_of_mod_eq_zero h))

/-- Coverage of the tree merge: entering the round with bit `2 ^ k` and `n`'s
low `k` bits all zero, worker `n`'s remaining loop folds in exactly the final
tables of the index interval from `n + 2 ^ k` up to its exit bound `n + 2 ^ m`
(both clipped at `N`). -/
theorem wfin_cover (t : Nat → WC) (N : Nat) (w : Word) :
    ∀ fuel k n (cur : WC), n < N → n % 2 ^ k = 0 → 2 * (N - n) ≤ fuel + k →
      ∃ m, k ≤ m ∧ n % 2 ^ m = 0 ∧ (N ≤ n + 2 ^ m ∨ n &&& 2 ^ m ≠ 0) ∧
        wfin t N fuel n (2 ^ k) cur w
          = cur w + ∑ i in Finset.Ico (min N (n + 2 ^ k)) (min N (n + 2 ^ m)), t i w := by
  intro fuel
  induction fuel with
  | zero =>
    intro k n cur hn hmod hf
    refine ⟨k, le_refl _, hmod, ?_, by simp [wfin]⟩
    left
    have hk := Nat.lt_two_pow k
    omega
  | succ fuel ih =>
    intro k n cur hn hmod hf
    have hposk : 0 < (2 : Nat) ^ k := Nat.pow_pos (by norm_num)
    by_cases hcond : n + 2 ^ k < N
    · by_cases hbit : n &&& 2 ^ k ≠ 0
      · refine ⟨k, le_refl _, hmod, Or.inr hbit, ?_⟩
        simp [wfin, hcond, hbit]
      · push_neg at hbit
        have hmodsucc : n % 2 ^ (k + 1) = 0 := mod_succ_of_and_zero hmod hbit
        have h2k1 : (2 : Nat) ^ (k + 1) = 2 * 2 ^ k := by rw [pow_succ]; ring
        have hkk : k + 1 < 2 ^ (k + 1) := Nat.lt_two_pow (k + 1)
        obtain ⟨m1, hm1k, hm1mod, hm1exit, hm1val⟩ :=
          ih 0 (n + 2 ^ k) (t (n + 2 ^ k)) hcond (by rw [pow_zero]; exact Nat.mod_one _) (by omega)
        rw [pow_zero] at hm1val
        -- the partner's low k+1 bits are 1 followed by k zeros
        have hpmod : (n + 2 ^ k) % 2 ^ (k + 1) = 2 ^ k := by
          obtain ⟨q, hq⟩ := Nat.dvd_of_mod_eq_zero hmodsucc
          rw [hq, Nat.mul_add_mod]
          exact Nat.mod_eq_of_lt (by omega)
        have hposm1 : 0 < (2 : Nat) ^ m1 := Nat.pow_pos (by norm_num)
        have hm1le : m1 ≤ k := by
          by_contra hgt
          have := mod_pow_zero_of_le (by omega : k + 1 ≤ m1) hm1mod
          omega
        have hm1pow : (2 : Nat) ^ m1 ≤ 2 ^ k :=
          Nat.pow_le_pow_right (by norm_num) hm1le
        -- in both exit cases the partner's clipped upper bound is
        -- `min N (n + 2 ^ (k + 1))`
        have hupper : min N (n + 2 ^ k + 2 ^ m1) = min N (n + 2 ^ (k + 1)) := by
          rcases hm1exit with hNle | hand
          · rw [min_eq_left (by omega), min_eq_left (by omega)]
          · have hm1eq : m1 = k := by
              by_contra hne
              have hlt : m1 < k := by omega
              have hpk0 : (n + 2 ^ k) % 2 ^ k = 0 :=
                Nat.mod_eq_zero_of_dvd
                  (dvd_add (Nat.dvd_of_mod_eq_zero hmod) dvd_rfl)
              have h1 := mod_succ_of_and_ne hm1mod hand
              have h2 := mod_pow_zero_of_le (by omega : m1 + 1 ≤ k) hpk0
              omega
            subst hm1eq
            have : n + 2 ^ m1 + 2 ^ m1 = n + 2 ^ (m1 + 1) := by
              rw [pow_succ]
              ring
            rw [this]
        have hplt : n + 2 ^ k < min N (n + 2 ^ (k + 1)) :=
          lt_min hcond (by omega)
        have hsubsum : wfin t N fuel (n + 2 ^ k) 1 (t (n + 2 ^ k)) w
            = ∑ i in Finset.Ico (n + 2 ^ k) (min N (n + 2 ^ (k + 1))), t i w := by
          rw [hm1val, min_eq_right (by omega : n + 2 ^ k + 1 ≤ N), hupper,
            Finset.sum_eq_sum_Ico_succ_bot hplt]
        obtain ⟨m2, hm2k, hm2mod, hm2exit, hm2val⟩ :=
          ih (k + 1) n
            (fun w' => cur w' + wfin t N fuel (n + 2 ^ k) 1 (t (n + 2 ^ k)) w')
            hn hmodsucc (by omega)
        have hposm2 : (2 : Nat) ^ (k + 1) ≤ 2 ^ m2 :=
          Nat.pow_le_pow_right (by norm_num) hm2k
        have hunfold : wfin t N (fuel + 1) n (2 ^ k) cur
            = wfin t N fuel n (2 ^ (k + 1))
                (fun w' => cur w' + wfin t N fuel (n + 2 ^ k) 1 (t (n + 2 ^ k)) w') := by
          rw [h2k1]
          simp [wfin, hcond, hbit]
        refine ⟨m2, by omega, hm2mod, hm2exit, ?_⟩
        rw [hunfold, hm2val, hsubsum, min_eq_right (le_of_lt hcond),
          Nat.add_assoc,
          Finset.sum_Ico_consecutive _
            (le_min (le_of_lt hcond) (by omega))
            (min_le_min (le_refl N) (by omega))]
    · refine ⟨k, le_refl _, hmod, Or.inl (by omega), ?_⟩
      simp [wfin, hcond]

theorem foldl_range_sum (t : Nat → WC) (w : Word) :
    ∀ N, (List.range N).foldl (fun acc n => acc + t n w) 0
      = ∑ i in Finset.range N, t i w := by
  intro N
  induction N with
  | zero => simp
  | succ N ih =>
    rw [List.range_succ, List.foldl_append, ih, Finset.sum_range_succ]
    rfl

/-- Claim C3: for every family of per-thread tables and every worker count
`N ≥ 1` (a power of two or not), the parallel binary-tree merge leaves in
worker 0's table exactly the sequential fold of all `N` tables: the same
words with the same total counts. -/
theorem parallel_merge_eq_sequential (t : Nat → WC) (N : Nat) (hN : 1 ≤ N)
    (w : Word) : parallelTotal t N w = seqTotal t N w := by
  obtain ⟨m, hm, hmod, hexit, hval⟩ :=
    wfin_cover t N w (2 * N) 0 0 (t 0) (by omega)
      (by rw [pow_zero]; exact Nat.mod_one _) (by omega)
  have hNle : N ≤ 2 ^ m := by
    rcases hexit with h | h
    · simpa using h
    · simp [Nat.zero_and] at h
  have hsum := Finset.sum_eq_sum_Ico_succ_bot (show 0 < N by omega)
    (fun i => t i w)
  rw [pow_zero] at hval
  have h1 : min N (0 + 1) = 1 := by omega
  have h2 : min N (0 + 2 ^ m) = N := by omega
  show wfin t N (2 * N) 0 1 (t 0) w = seqTotal t N w
  rw [hval, h1, h2]
  have hseq : seqTotal t N w = ∑ i in Finset.Ico 0 N, t i w := by
    show (List.range N).foldl (fun acc n => acc + t n w) 0 = _
    rw [foldl_range_sum, Finset.range_eq_Ico]
  rw [hseq, hsum]

/-- Claim C3 witness: three workers (not a power of two), a concrete table
family, a concrete word. -/
theorem parallel_merge_eq_sequential_witness :
    parallelTotal (fun i => fun v => if v = [97] then i + 1 else 0) 3 [97]
      = seqTotal (fun i => fun v => if v = [97] then i + 1 else 0) 3 [97] :=
  parallel_merge_eq_sequential _ 3 (by norm_num) [97]

/-! ### Report ordering (claim C4) -/

/-- `std::string::operator<`: lexicographic byte-wise comparison. -/
def lexLt : Word → Word → Bool
  | [], [] => false
  | [], _ :: _ => true
  | _ :: _, [] => false
  | a :: as, b :: bs =>
    if a < b then true else if b < a then false else lexLt as bs

/-- `DefineSortOrder` on `(count, word)` keys:
`lhs.first > rhs.first || (lhs.first == rhs.first && lhs.second < rhs.second)`. -/
def sortKeyLt (l r : Nat × Word) : Bool :=
  decide (r.1 < l.1) || (decide (l.1 = r.1) && lexLt l.2 r.2)

/-- Insertion into the ordered `std::map` keyed by `(count, word)`: the new
key goes before the first existing key it precedes; inserting an existing key
leaves the map's key set unchanged. -/
def insertSorted (x : Nat × Word) : List (Nat × Word) → List (Nat × Word)
  | [] => [x]
  | y :: ys =>
    if sortKeyLt x y then x :: y :: ys
    else if sortKeyLt y x then y :: insertSorted x ys
    else y :: ys

/-- Building `sorted_totals`: every `(word, count)` entry of the final
aggregate table is inserted under the key `(count, word)`. -/
def buildReport (tbl : List (Word × Nat)) : List (Nat × Word) :=
  tbl.foldl (fun acc e => insertSorted (e.2, e.1) acc) []

theorem lexLt_irrefl : ∀ w : Word, lexLt w w = false
  | [] => rfl
  | a :: as => by simp [lexLt, lexLt_irrefl as]

theorem lexLt_cons_iff (a b : Nat) (as bs : Word) :
    lexLt (a :: as) (b :: bs) = true ↔ a < b ∨ (a = b ∧ lexLt as bs = true) := by
  by_cases h1 : a < b
  · simp [lexLt, h1]
  · by_cases h2 : b < a
    · simp [lexLt, h1, h2]
      omega
    · have hab : a = b := by omega
      subst hab
      simp [lexLt, h1, h2]

theorem lexLt_total : ∀ v w : Word, v ≠ w → lexLt v w = true ∨ lexLt w v = true := by
  intro v
  induction v with
  | nil =>
    intro w h
    cases w with
    | nil => exact absurd rfl h
    | cons b bs => left; rfl
  | cons a as ih =>
    intro w h
    cases w with
    | nil => right; rfl
    | cons b bs =>
      rcases Nat.lt_trichotomy a b with hab | hab | hab
      · left
        exact (lexLt_cons_iff a b as bs).mpr (Or.inl hab)
      · subst hab
        have hne : as ≠ bs := fun hc => h (by rw [hc])
        rcases ih bs hne with h1 | h1
        · left
          exact (lexLt_cons_iff a a as bs).mpr (Or.inr ⟨rfl, h1⟩)
        · right
          exact (lexLt_cons_iff a a bs as).mpr (Or.inr ⟨rfl, h1⟩)
      · right
        exact (lexLt_cons_iff b a bs as).mpr (Or.inl hab)

theorem lexLt_trans : ∀ u v w : Word,
    lexLt u v = true → lexLt v w = true → lexLt u w = true := by
  intro u
  induction u with
  | nil =>
    intro v w huv hvw
    cases v with
    | nil => cases huv
    | cons b bs =>
      cases w with
      | nil => cases hvw
      | cons c cs => rfl
  | cons a as ih =>
    intro v w huv hvw
    cases v with
    | nil => cases huv
    | cons b bs =>
      cases w with
      | nil => cases hvw
      | cons c cs =>
        rcases (lexLt_cons_iff a b as bs).mp huv with h1 | ⟨h1, h1l⟩ <;>
          rcases (lexLt_cons_iff b c bs cs).mp hvw with h2 | ⟨h2, h2l⟩
        · exact (lexLt_cons_iff a c as cs).mpr (Or.inl (by omega))
        · exact (lexLt_cons_iff a c as cs).mpr (Or.inl (by omega))
        · exact (lexLt_cons_iff a c as cs).mpr (Or.inl (by omega))
        · exact (lexLt_cons_iff a c as cs).mpr
            (Or.inr ⟨by omega, ih bs cs h1l h2l⟩)

theorem sortKeyLt_irrefl (x : Nat × Word) : sortKeyLt x x = false := by
  simp [sortKeyLt, lexLt_irrefl]

theorem sortKeyLt_total {x y : Nat × Word} (h : x ≠ y) :
    sortKeyLt x y = true ∨ sortKeyLt y x = true := by
  rcases Nat.lt_trichotomy x.1 y.1 with hc | hc | hc
  · right
    simp [sortKeyLt, hc]
  · have hw : x.2 ≠ y.2 := by
      intro hc2
      exact h (Prod.ext hc hc2)
    rcases lexLt_total x.2 y.2 hw with h1 | h1
    · left
      simp [sortKeyLt, hc, h1]
    · right
      simp [sortKeyLt, hc.symm, h1]
  · left
    simp [sortKeyLt, hc]

theorem sortKeyLt_trans {x y z : Nat × Word} (h1 : sortKeyLt x y = true)
    (h2 : sortKeyLt y z = true) : sortKeyLt x z = true := by
  simp only [sortKeyLt, Bool.or_eq_true, Bool.and_eq_true, decide_eq_true_eq] at h1 h2 ⊢
  rcases h1 with h1 | ⟨h1, h1l⟩ <;> rcases h2 with h2 | ⟨h2, h2l⟩
  · left; omega
  · left; omega
  · left; omega
  · right
    exact ⟨by omega, lexLt_trans _ _ _ h1l h2l⟩

theorem sortKeyLt_eq_of_not_lt {x y : Nat × Word} (h1 : ¬ sortKeyLt x y = true)
    (h2 : ¬ sortKeyLt y x = true) : x = y := by
  by_contra hne
  rcases sortKeyLt_total hne with h | h
  · exact h1 h
  · exact h2 h

theorem mem_insertSorted {x z : Nat × Word} :
    ∀ l, z ∈ insertSorted x l → z = x ∨ z ∈ l := by
  intro l
  induction l with
  | nil =>
    intro h
    simp [insertSorted] at h
    exact Or.inl h
  | cons y ys ih =>
    intro h
    by_cases hxy : sortKeyLt x y = true
    · simp only [insertSorted, if_pos hxy] at h
      rcases List.mem_cons.mp h with h | h
      · exact Or.inl h
      · exact Or.inr h
    · by_cases hyx : sortKeyLt y x = true
      · simp only [insertSorted, if_neg hxy, if_pos hyx] at h
        rcases List.mem_cons.mp h with h | h
        · exact Or.inr (List.mem_cons.mpr (Or.inl h))
        · rcases ih h with h | h
          · exact Or.inl h
          · exact Or.inr (List.mem_cons.mpr (Or.inr h))
      · simp only [insertSorted, if_neg hxy, if_neg hyx] at h
        exact Or.inr h

theorem self_mem_insertSorted (x : Nat × Word) :
    ∀ l, x ∈ insertSorted x l := by
  intro l
  induction l with
  | nil => simp [insertSorted]
  | cons y ys ih =>
    by_cases hxy : sortKeyLt x y = true
    · simp [insertSorted, hxy]
    · by_cases hyx : sortKeyLt y x = true
      · simp only [insertSorted, if_neg hxy, if_pos hyx]
        exact List.mem_cons.mpr (Or.inr ih)
      · have hxeq : x = y := sortKeyLt_eq_of_not_lt hxy hyx
        subst hxeq
        simp only [insertSorted, if_neg hxy]
        exact List.mem_cons_self x ys

theorem mem_insertSorted_of_mem (x : Nat × Word) {z : Nat × Word} :
    ∀ l, z ∈ l → z ∈ insertSorted x l := by
  intro l
  induction l with
  | nil => intro h; cases h
  | cons y ys ih =>
    intro h
    by_cases hxy : sortKeyLt x y = true
    · simp only [insertSorted, if_pos hxy]
      exact List.mem_cons.mpr (Or.inr h)
    · by_cases hyx : sortKeyLt y x = true
      · simp only [insertSorted, if_neg hxy, if_pos hyx]
        rcases List.mem_cons.mp h with h | h
        · exact List.mem_cons.mpr (Or.inl h)
        · exact List.mem_cons.mpr (Or.inr (ih h))
      · simp only [insertSorted, if_neg hxy, if_neg hyx]
        exact h

theorem insertSorted_pairwise (x : Nat × Word) :
    ∀ l, l.Pairwise (fun a b => sortKeyLt a b = true) →
      (insertSorted x l).Pairwise (fun a b => sortKeyLt a b = true) := by
  intro l
  induction l with
  | nil => intro _; simp [insertSorted]
  | cons y ys ih =>
    intro hp
    rw [List.pairwise_cons] at hp
    obtain ⟨hy, hys⟩ := hp
    by_cases hxy : sortKeyLt x y = true
    · simp only [insertSorted, if_pos hxy]
      rw [List.pairwise_cons]
      refine ⟨?_, List.pairwise_cons.mpr ⟨hy, hys⟩⟩
      intro z hz
      rcases List.mem_cons.mp hz with h | h
      · rw [h]; exact hxy
      · exact sortKeyLt_trans hxy (hy z h)
    · by_cases hyx : sortKeyLt y x = true
      · simp only [insertSorted, if_neg hxy, if_pos hyx]
        rw [List.pairwise_cons]
        refine ⟨?_, ih hys⟩
        intro z hz
        rcases mem_insertSorted _ hz with h | h
        · rw [h]; exact hyx
        · exact hy z h
      · simp only [insertSorted, if_neg hxy, if_neg hyx]
        exact List.pairwise_cons.mpr ⟨hy, hys⟩

theorem foldl_insert_pairwise :
    ∀ (tbl : List (Word × Nat)) (acc : List (Nat × Word)),
      acc.Pairwise (fun a b => sortKeyLt a b = true) →
      (tbl.foldl (fun acc e => insertSorted (e.2, e.1) acc) acc).Pairwise
        (fun a b => sortKeyLt a b = true) := by
  intro tbl
  induction tbl with
  | nil => intro acc h; exact h
  | cons e rest ih =>
    intro acc h
    exact ih _ (insertSorted_pairwise _ _ h)

theorem foldl_insert_mem :
    ∀ (tbl : List (Word × Nat)) (acc : List (Nat × Word)) (z : Nat × Word),
      z ∈ tbl.foldl (fun acc e => insertSorted (e.2, e.1) acc) acc →
      (z.2, z.1) ∈ tbl ∨ z ∈ acc := by
  intro tbl
  induction tbl with
  | nil => intro acc z h; exact Or.inr h
  | cons e rest ih =>
    intro acc z h
    rcases ih _ z h with h | h
    · exact Or.inl (List.mem_cons.mpr (Or.inr h))
    · rcases mem_insertSorted _ h with h | h
      · left
        rw [h]
        simp
      · exact Or.inr h

theorem foldl_insert_mem_of :
    ∀ (tbl : List (Word × Nat)) (acc : List (Nat × Word)) (z : Nat × Word),
      (z ∈ acc ∨ (z.2, z.1) ∈ tbl) →
      z ∈ tbl.foldl (fun acc e => insertSorted (e.2, e.1) acc) acc := by
  intro tbl
  induction tbl with
  | nil =>
    intro acc z h
    rcases h with h | h
    · exact h
    · cases h
  | cons e rest ih =>
    intro acc z h
    rcases h with h | h
    · exact ih _ z (Or.inl (mem_insertSorted_of_mem _ _ h))
    · rcases List.mem_cons.mp h with h | h
      · have hz : z = (e.2, e.1) := by
          have h1 : z.2 = e.1 := congrArg Prod.fst h
          have h2 : z.1 = e.2 := congrArg Prod.snd h
          exact Prod.ext h2 h1
        exact ih _ z (Or.inl (hz ▸ self_mem_insertSorted _ acc))
      · exact ih _ z (Or.inr h)

theorem table_word_count_unique :
    ∀ (tbl : List (Word × Nat)), (tbl.map Prod.fst).Nodup →
      ∀ {w : Word} {c1 c2 : Nat}, (w, c1) ∈ tbl → (w, c2) ∈ tbl → c1 = c2 := by
  intro tbl
  induction tbl with
  | nil => intro _ w c1 c2 h; cases h
  | cons e rest ih =>
    intro hnd w c1 c2 h1 h2
    rw [List.map_cons, List.nodup_cons] at hnd
    obtain ⟨hnotin, hnd2⟩ := hnd
    rcases List.mem_cons.mp h1 with h1 | h1 <;> rcases List.mem_cons.mp h2 with h2 | h2
    · rw [← h1] at h2
      exact ((Prod.mk.injEq _ _ _ _).mp h2).2.symm
    · exfalso
      apply hnotin
      rw [← h1]
      exact List.mem_map.mpr ⟨(w, c2), h2, rfl⟩
    · exfalso
      apply hnotin
      rw [← h2]
      exact List.mem_map.mpr ⟨(w, c1), h1, rfl⟩
    · exact ih hnd2 h1 h2

/-- Claim C4: for a final aggregate table (unique words), the report built by
inserting every (word, count) pair under the key (count, word) is strictly
sorted by `DefineSortOrder` — for any two entries the higher count precedes,
and on equal counts the lexicographically smaller word precedes — contains no
duplicate words, and its entries are exactly the table's entries. -/
theorem report_strict_order (tbl : List (Word × Nat))
    (hw : (tbl.map Prod.fst).Nodup) :
    (buildReport tbl).Pairwise (fun a b => sortKeyLt a b = true) ∧
    ((buildReport tbl).map Prod.snd).Nodup ∧
    (∀ e ∈ tbl, (e.2, e.1) ∈ buildReport tbl) ∧
    (∀ x ∈ buildReport tbl, (x.2, x.1) ∈ tbl) := by
  have hpw := foldl_insert_pairwise tbl [] List.Pairwise.nil
  have hmem : ∀ x ∈ buildReport tbl, (x.2, x.1) ∈ tbl := by
    intro x hx
    rcases foldl_insert_mem tbl [] x hx with h | h
    · exact h
    · cases h
  refine ⟨hpw, ?_, ?_, hmem⟩
  · rw [List.Nodup, List.pairwise_map]
    refine hpw.imp_of_mem ?_
    intro a b ha hb hlt heq
    have h1 := hmem a ha
    have h2 := hmem b hb
    rw [heq] at h1
    have hc : b.1 = a.1 := table_word_count_unique tbl hw h2 h1
    have hab : a = b := Prod.ext hc.symm heq
    rw [hab, sortKeyLt_irrefl] at hlt
    cases hlt
  · intro e he
    apply foldl_insert_mem_of
    right
    simpa using he

/-- Claim C4 witness: a concrete two-word aggregate table. -/
theorem report_strict_order_witness :
    (buildReport [([102, 111, 111], 2), ([98, 97, 114], 1)]).Pairwise
      (fun a b => sortKeyLt a b = true) ∧
    ((buildReport [([102, 111, 111], 2), ([98, 97, 114], 1)]).map
      Prod.snd).Nodup ∧
    (∀ e ∈ [([102, 111, 111], 2), ([98, 97, 114], 1)],
      (e.2, e.1) ∈ buildReport [([102, 111, 111], 2), ([98, 97, 114], 1)]) ∧
    (∀ x ∈ buildReport [([102, 111, 111], 2), ([98, 97, 114], 1)],
      (x.2, x.1) ∈ [([102, 111, 111], 2), ([98, 97, 114], 1)]) :=
  report_strict_order _ (by decide)

/-! ### Configuration and global constants (claims C6, C7) -/

/-- `const int MAXTHREADS = 64`. -/
def MAXTHREADS : Nat := 64

/-- `const int FDESCS = MAXTHREADS`: the size of the `fdescs` handle ring and
the initial permit count of the `fcount` free-slot semaphore. -/
def FDESCS : Nat := MAXTHREADS

/-- The configuration globals set by `main`'s option loop. -/
structure Config where
  nthreads : Int
  nblocks : Int
  parallel_merge : Bool
  silent : Bool
deriving DecidableEq

/-- The initial values: `nthreads = 1`, `nblocks = 16`, merge off, verbose. -/
def initialConfig : Config := ⟨1, 16, false, false⟩

/-- One recognized command-line option, carrying the `atoi` value of its
argument for the numeric ones. -/
inductive CmdOpt
  | nOpt (v : Int)
  | bOpt (v : Int)
  | pOpt
  | sOpt
deriving DecidableEq

/-- The `switch` of `main`'s option loop: `-n` stores the value with no
comparison against `MAXTHREADS`; `-b` is clamped to at most 127. -/
def applyOpt (c : Config) : CmdOpt → Config
  | .nOpt v => { c with nthreads := v }
  | .bOpt v => { c with nblocks := min v 127 }
  | .pOpt => { c with parallel_merge := true }
  | .sOpt => { c with silent := true }

/-- The whole option loop. -/
def parseConfig (opts : List CmdOpt) : Config :=
  opts.foldl applyOpt initialConfig

/-- The worker ids `main` and the workers use to index `buffers`,
`sub_count`, `ready_for_merge` and `my_threads` — global arrays of
`MAXTHREADS` entries. -/
def workerIds (c : Config) : List Nat := List.range c.nthreads.toNat

/-- Claim C6 is contradicted by the code: `-n65` is stored unchecked —
no comparison of the thread count against the fixed maximum exists — and
worker id 64 is then used to index the 64-entry global arrays. -/
theorem nthreads_unchecked :
    (parseConfig [CmdOpt.nOpt 65]).nthreads = 65 ∧
    ¬ ((parseConfig [CmdOpt.nOpt 65]).nthreads ≤ (MAXTHREADS : Int)) ∧
    64 ∈ workerIds (parseConfig [CmdOpt.nOpt 65]) ∧
    ¬ (64 < MAXTHREADS) := by decide

/-! ### The bounded handle queue's semaphore accounting (claims C2, C7) -/

/-- Abstract queue state: remaining permits of `fcount` (free slots),
permits of `opencount` (submitted, not yet claimed handles), and files
claimed but not yet finished by a worker. -/
structure QState where
  free : Nat
  avail : Nat
  inproc : Nat
deriving DecidableEq

/-- The initial state: `fcount(FDESCS)`, `opencount(0)`. -/
def qInit : QState := ⟨FDESCS, 0, 0⟩

/-- The pipeline's four kinds of semaphore-touching steps. -/
inductive QEv
  | openOk
  | openFail
  | claim
  | finish
deriving DecidableEq

/-- One step of the pipeline. `openOk`: `fcount.acquire`, successful `open`,
`opencount.release`. `openFail`: `fcount.acquire`, failed `open` — the
failure branch of `fopener` touches no semaphore. `claim`:
`opencount.acquire` and taking the handle in `wcounter`. `finish`:
`fcount.release` after the stream is exhausted. `none` means the step's
acquire would block. -/
def qStep (s : QState) : QEv → Option QState
  | .openOk =>
    if s.free = 0 then none else some ⟨s.free - 1, s.avail + 1, s.inproc⟩
  | .openFail =>
    if s.free = 0 then none else some ⟨s.free - 1, s.avail, s.inproc⟩
  | .claim =>
    if s.avail = 0 then none else some ⟨s.free, s.avail - 1, s.inproc + 1⟩
  | .finish =>
    if s.inproc = 0 then none else some ⟨s.free + 1, s.avail, s.inproc - 1⟩

/-- Run a sequence of steps; `none` as soon as one blocks. -/
def qRun (s : QState) : List QEv → Option QState
  | [] => some s
  | e :: es =>
    match qStep s e with
    | none => none
    | some s2 => qRun s2 es

/-- One iteration of `fopener`'s loop body, abstracted over whether `open`
succeeds: acquire a free-slot permit, then release `opencount` only on
success; the failure branch prints and moves on without releasing anything. -/
def fopenerStep (s : QState) (openOk : Bool) : Option QState :=
  qStep s (if openOk then QEv.openOk else QEv.openFail)

/-- `fopener`'s loop over a list of open outcomes. -/
def fopenerRun (s : QState) : List Bool → Option QState
  | [] => some s
  | ok :: rest =>
    match fopenerStep s ok with
    | none => none
    | some s2 => fopenerRun s2 rest

/-- Claim C2 is contradicted by the code: the failure branch of `fopener`
never releases the `fcount` unit it acquired, so each failed open permanently
consumes one of the 64 free-slot permits. After 64 failed opens all permits
are gone and every further step of the pipeline blocks — the producer cannot
acquire a slot for the next file or for the `END` sentinels, and no worker
holds anything it could release — a deadlock. -/
theorem failed_opens_exhaust_queue :
    fopenerRun qInit (List.replicate 64 false) = some ⟨0, 0, 0⟩ ∧
    fopenerStep ⟨0, 0, 0⟩ false = none ∧
    fopenerStep ⟨0, 0, 0⟩ true = none ∧
    qStep ⟨0, 0, 0⟩ QEv.claim = none ∧
    qStep ⟨0, 0, 0⟩ QEv.finish = none := by decide

theorem qRun_sum_invariant :
    ∀ (evs : List QEv) (s0 s : QState),
      s0.free + s0.avail + s0.inproc ≤ FDESCS →
      qRun s0 evs = some s → s.free + s.avail + s.inproc ≤ FDESCS := by
  intro evs
  induction evs with
  | nil =>
    intro s0 s h hrun
    rw [qRun] at hrun
    cases hrun
    exact h
  | cons e es ih =>
    intro s0 s h hrun
    obtain ⟨f, a, p⟩ := s0
    rw [qRun] at hrun
    cases e
    case openOk =>
      by_cases hz : f = 0
      · simp [qStep, hz] at hrun
      · simp only [qStep, if_neg hz] at hrun
        exact ih _ s (by simp at h ⊢; omega) hrun
    case openFail =>
      by_cases hz : f = 0
      · simp [qStep, hz] at hrun
      · simp only [qStep, if_neg hz] at hrun
        exact ih _ s (by simp at h ⊢; omega) hrun
    case claim =>
      by_cases hz : a = 0
      · simp [qStep, hz] at hrun
      · simp only [qStep, if_neg hz] at hrun
        exact ih _ s (by simp at h ⊢; omega) hrun
    case finish =>
      by_cases hz : p = 0
      · simp [qStep, hz] at hrun
      · simp only [qStep, if_neg hz] at hrun
        exact ih _ s (by simp at h ⊢; omega) hrun

/-- Claim C7 (amended): the queue's capacity is the compile-time constant
`FDESCS = MAXTHREADS = 64`, independent of the configured worker count, and
in every reachable pipeline state at most 64 submitted-but-unclaimed handles
exist. -/
theorem queue_capacity_fixed :
    FDESCS = 64 ∧ FDESCS = MAXTHREADS ∧
    ∀ (evs : List QEv) (s : QState),
      qRun qInit evs = some s → s.avail ≤ FDESCS := by
  refine ⟨rfl, rfl, ?_⟩
  intro evs s h
  have hinv := qRun_sum_invariant evs qInit s (by decide) h
  omega

/-- Claim C7 witness: two submissions leave two unclaimed handles, within the
64-slot bound. -/
theorem queue_capacity_fixed_witness :
    (⟨62, 2, 0⟩ : QState).avail ≤ FDESCS :=
  queue_capacity_fixed.2.2 [QEv.openOk, QEv.openOk] ⟨62, 2, 0⟩ (by decide)

/-- Claim C7, as stated, is false: with `-n2` the configured worker count is
2, but the free-slot semaphore starts with `FDESCS = 64 ≠ 2` permits, and a
state with three submitted-but-unclaimed handles is reachable. -/
theorem capacity_not_nthreads :
    (parseConfig [CmdOpt.nOpt 2]).nthreads = 2 ∧
    qRun qInit (List.replicate 3 QEv.openOk) = some ⟨61, 3, 0⟩ ∧
    ¬ ((3 : Int) ≤ (parseConfig [CmdOpt.nOpt 2]).nthreads) ∧
    FDESCS ≠ 2 := by decide

/-! ### End-of-run accounting and the report decision (claims C9, C10) -/

/-- The atomic counters of a run, as `main` reads them after joining the
producer and all workers. -/
structure RunStats where
  file_count : Nat
  expected_file_count : Nat
  blocks_scanned : Nat
  bytes_scanned : Nat
deriving DecidableEq

/-- `fopener`'s recording of the expected file count: the assignment
`expected_file_count = nfiles` sits inside `if (!silent)`, so in silent mode
the counter keeps its initial value 0. -/
def expectedAfterScan (silent : Bool) (nfiles : Nat) : Nat :=
  if silent then 0 else nfiles

/-- The tail of `main` after the joins: exit without a report when the
processed count differs from the expected count; in verbose mode, also exit
when zero blocks or zero bytes were scanned; otherwise build the sorted
report from the aggregate table. -/
def mainReport (silent : Bool) (st : RunStats) (tbl : List (Word × Nat)) :
    Option (List (Nat × Word)) :=
  if st.file_count ≠ st.expected_file_count then none
  else if silent = false ∧ (st.blocks_scanned = 0 ∨ st.bytes_scanned = 0)
    then none
  else some (buildReport tbl)

/-- Claim C9, as stated, is false: a verbose run whose processed count equals
its expected count (here both 2) but that scanned zero blocks also terminates
early without building a report. -/
theorem early_exit_not_only_mismatch :
    (⟨2, 2, 0, 0⟩ : RunStats).file_count
      = (⟨2, 2, 0, 0⟩ : RunStats).expected_file_count ∧
    mainReport false ⟨2, 2, 0, 0⟩ [] = none := by decide

/-- Claim C9 (amended): after the joins, the run terminates early without a
report exactly when the processed count differs from the expected count or,
in verbose mode, when zero blocks or zero bytes were scanned; otherwise the
sorted report is built. -/
theorem report_iff_counts_match (silent : Bool) (st : RunStats)
    (tbl : List (Word × Nat)) :
    (mainReport silent st tbl = none ↔
      st.file_count ≠ st.expected_file_count ∨
        (silent = false ∧ (st.blocks_scanned = 0 ∨ st.bytes_scanned = 0))) ∧
    (¬ (st.file_count ≠ st.expected_file_count ∨
        (silent = false ∧ (st.blocks_scanned = 0 ∨ st.bytes_scanned = 0))) →
      mainReport silent st tbl = some (buildReport tbl)) := by
  constructor
  · constructor
    · intro h
      by_contra hc
      rw [not_or] at hc
      rw [mainReport, if_neg hc.1, if_neg hc.2] at h
      cases h
    · intro h
      rcases h with h | h
      · rw [mainReport, if_pos h]
      · rw [mainReport]
        by_cases h1 : st.file_count ≠ st.expected_file_count
        · rw [if_pos h1]
        · rw [if_neg h1, if_pos h]
  · intro h
    rw [not_or] at h
    rw [mainReport, if_neg h.1, if_neg h.2]

/-- Claim C9 witness: a mismatching run builds no report. -/
theorem report_iff_counts_match_witness :
    mainReport false ⟨1, 2, 5, 5⟩ [] = none :=
  (report_iff_counts_match false ⟨1, 2, 5, 5⟩ []).1.mpr (Or.inl (by decide))

/-- Claim C10: in silent mode `expected_file_count` is never assigned and
keeps its initial value 0, so every silent run that actually processed at
least one file fails the final processed-versus-expected comparison and
exits before building the sorted report. -/
theorem silent_run_exits_early (nfiles processed blocks bytes : Nat)
    (tbl : List (Word × Nat)) (h : 1 ≤ processed) :
    expectedAfterScan true nfiles = 0 ∧
    mainReport true ⟨processed, expectedAfterScan true nfiles, blocks, bytes⟩
      tbl = none := by
  refine ⟨rfl, ?_⟩
  rw [mainReport, if_pos]
  show processed ≠ 0
  omega

/-- Claim C10 witness: one processed file in a silent run. -/
theorem silent_run_exits_early_witness :
    expectedAfterScan true 1 = 0 ∧
    mainReport true ⟨1, expectedAfterScan true 1, 3, 100⟩ [] = none :=
  silent_run_exits_early 1 1 3 100 [] (by decide)

end FastWC
